import Mathlib

/-!
Shallow embedding of the `lsst::geom::polynomials` core (scalings, compensated
summation, recurrence bases, packed 2-d indexing, binomial cache, and the
de-scaling algorithms) over exact rational arithmetic, together with proofs of
the specified properties.

Machine `double` arithmetic is modelled by `ℚ`: every operation the code
performs (addition, subtraction, multiplication, division) is mirrored exactly,
so algebraic identities claimed "under exact arithmetic" are provable, and the
incremental power/compensation bookkeeping of the source is kept intact rather
than being simplified away.
-/

namespace LsstPoly

/-! ### Scaling1d (include/lsst/geom/polynomials/Scaling1d.h) -/

/-- `Scaling1d`: a 1-d affine transform, an additive shift followed by a
multiplicative scaling. -/
structure Scaling1d where
  scale : ℚ
  shift : ℚ
  deriving DecidableEq, Repr

/-- `Scaling1d::applyForward`: `(x + getShift())*getScale()`. -/
def Scaling1d.applyForward (t : Scaling1d) (x : ℚ) : ℚ :=
  (x + t.shift) * t.scale

/-- `Scaling1d::applyInverse`: `y/_scale - _shift`. -/
def Scaling1d.applyInverse (t : Scaling1d) (y : ℚ) : ℚ :=
  y / t.scale - t.shift

/-- `Scaling1d::inverted`: `Scaling1d(1.0/_scale, -_shift*_scale)`. -/
def Scaling1d.inverted (t : Scaling1d) : Scaling1d :=
  ⟨1 / t.scale, -t.shift * t.scale⟩

/-- `Scaling1d::then`: `Scaling1d(getScale()*second.getScale(),
getShift() + second.getShift()/getScale())`. -/
def Scaling1d.comp (a second : Scaling1d) : Scaling1d :=
  ⟨a.scale * second.scale, a.shift + second.shift / a.scale⟩

/-! ### Scaling2d (include/lsst/geom/polynomials/Scaling2d.h) -/

/-- `Scaling2d`: independent per-axis `Scaling1d` pair. -/
structure Scaling2d where
  x : Scaling1d
  y : Scaling1d
  deriving DecidableEq, Repr

/-- `Scaling2d::applyForward` acting componentwise on a point. -/
def Scaling2d.applyForward (t : Scaling2d) (p : ℚ × ℚ) : ℚ × ℚ :=
  (t.x.applyForward p.1, t.y.applyForward p.2)

/-- `Scaling2d::then`, componentwise composition. -/
def Scaling2d.comp (a second : Scaling2d) : Scaling2d :=
  ⟨a.x.comp second.x, a.y.comp second.y⟩

/-! ### SafeSum (include/lsst/geom/polynomials/SafeSum.h) -/

/-- `SumMode`: plain (`FAST`) vs compensated (`SAFE`) accumulation. -/
inductive SumMode where
  | FAST
  | SAFE
  deriving DecidableEq, Repr

/-- `SafeSum<T>`: Kahan-Neumaier compensated accumulator state
`(_sum, _correction)`. -/
structure SafeSum where
  sum : ℚ
  correction : ℚ
  deriving DecidableEq, Repr

/-- `SafeSum` constructor: `_sum(initial), _correction(0)`. -/
def SafeSum.ofInitial (initial : ℚ) : SafeSum :=
  ⟨initial, 0⟩

/-- `SafeSum::operator=`: `_sum = value; _correction = 0`.  The previous state
`s` is discarded entirely. -/
def SafeSum.assign (_s : SafeSum) (value : ℚ) : SafeSum :=
  ⟨value, 0⟩

/-- `SafeSum::operator+=` (Kahan-Neumaier update). -/
def SafeSum.add (s : SafeSum) (value : ℚ) : SafeSum :=
  let t := s.sum + value
  if |s.sum| ≥ |value| then
    ⟨t, s.correction + ((s.sum - t) + value)⟩
  else
    ⟨t, s.correction + ((value - t) + s.sum)⟩

/-- `SafeSum::operator T`: `_sum + _correction`. -/
def SafeSum.toNum (s : SafeSum) : ℚ :=
  s.sum + s.correction

/-! ### RecurrenceBasis1d (include/lsst/geom/polynomials/RecurrenceBasis1d.h) -/

/-- The `Recurrence` concept: `B0`, `B1`, and the three-term step
`next(x, n, current, previous)`. -/
structure Recurrence where
  getB0 : ℚ → ℚ
  getB1 : ℚ → ℚ
  next : ℚ → ℕ → ℚ → ℚ → ℚ

/-- `PolynomialRecurrence` (PolynomialBasis1d.h): `B0 = 1`, `B1 = x`,
`next = current*x`. -/
def PolynomialRecurrence : Recurrence where
  getB0 := fun _ => 1
  getB1 := fun x => x
  next := fun x _ current _ => current * x

/-- `Chebyshev1Recurrence` (Chebyshev1Basis1d.h): `B0 = 1`, `B1 = x`,
`next = 2*x*current - previous`. -/
def Chebyshev1Recurrence : Recurrence where
  getB0 := fun _ => 1
  getB1 := fun x => x
  next := fun x _ current previous => 2 * x * current - previous

/-- The loop `for (n = 2; n <= order; ++n)` of `RecurrenceBasis1d::fill`,
emitting `basis[n] = next(x, n, basis[n-1], basis[n-2])`; `fuel` counts the
remaining iterations. -/
def recFillGo (R : Recurrence) (x : ℚ) : ℕ → ℕ → ℚ → ℚ → List ℚ
  | 0, _, _, _ => []
  | fuel + 1, n, current, previous =>
      let nxt := R.next x n current previous
      nxt :: recFillGo R x fuel (n + 1) nxt current

/-- `RecurrenceBasis1d::fill`: `basis[0] = B0(x)`; if `order > 0` also
`basis[1] = B1(x)` and the recurrence loop for `n = 2..order`. -/
def RecurrenceBasis1d.fill (R : Recurrence) (order : ℕ) (x : ℚ) : List ℚ :=
  if 0 < order then
    R.getB0 x :: R.getB1 x :: recFillGo R x (order - 1) 2 (R.getB1 x) (R.getB0 x)
  else
    [R.getB0 x]

/-- The loop `for (n = 2; n <= order; ++n)` of the `accumulate` lambda in
`RecurrenceBasis1d::sumWith`, generic over the accumulator type (plain `ℚ`
for FAST, `SafeSum` for SAFE), exactly as the C++ universal lambda is. -/
def recSumGo {α : Type} (add : α → ℚ → α) (R : Recurrence) (x : ℚ)
    (coeffs : ℕ → ℚ) : ℕ → ℕ → ℚ → ℚ → α → α
  | 0, _, _, _, sum => sum
  | fuel + 1, n, current, previous, sum =>
      let nxt := R.next x n current previous
      recSumGo add R x coeffs fuel (n + 1) nxt current (add sum (coeffs n * nxt))

/-- The `accumulate` lambda of `RecurrenceBasis1d::sumWith`: if `order > 0`,
add `coefficients[1]*B1(x)` and run the recurrence loop. -/
def RecurrenceBasis1d.accumulate {α : Type} (add : α → ℚ → α) (R : Recurrence)
    (order : ℕ) (x : ℚ) (coeffs : ℕ → ℚ) (sum : α) : α :=
  if 0 < order then
    recSumGo add R x coeffs (order - 1) 2 (R.getB1 x) (R.getB0 x)
      (add sum (coeffs 1 * R.getB1 x))
  else sum

/-- `RecurrenceBasis1d::sumWith`: seed with `B0(x)*coefficients[0]` and
accumulate, plainly in FAST mode, through a `SafeSum` in SAFE mode. -/
def RecurrenceBasis1d.sumWith (R : Recurrence) (order : ℕ) (x : ℚ)
    (coeffs : ℕ → ℚ) (mode : SumMode) : ℚ :=
  match mode with
  | .FAST => RecurrenceBasis1d.accumulate (· + ·) R order x coeffs
      (R.getB0 x * coeffs 0)
  | .SAFE => (RecurrenceBasis1d.accumulate SafeSum.add R order x coeffs
      (SafeSum.ofInitial (R.getB0 x * coeffs 0))).toNum

/-- Dot product of a materialized basis-value vector with a coefficient
vector, `∑ basis[i] * coefficients[i]`. -/
def dot (basis : List ℚ) (coeffs : ℕ → ℚ) : ℚ :=
  ∑ i ∈ Finset.range basis.length, basis.getD i 0 * coeffs i

/-! ### ScaledBasis1d (include/lsst/geom/polynomials/ScaledBasis1d.h) -/

/-- `ScaledBasis1d<RecurrenceBasis1d<R>>`: a nested recurrence basis
(recurrence and order) plus a `Scaling1d`. -/
structure ScaledBasis1d where
  recurrence : Recurrence
  order : ℕ
  scaling : Scaling1d

/-- `RecurrenceBasis1d::scaled`: `Scaled(*this, scaling)`. -/
def RecurrenceBasis1d.scaled (R : Recurrence) (order : ℕ)
    (scaling : Scaling1d) : ScaledBasis1d :=
  ⟨R, order, scaling⟩

/-- `ScaledBasis1d::scaled`: `getNested().scaled(first.then(getScaling()))`. -/
def ScaledBasis1d.scaled (b : ScaledBasis1d) (first : Scaling1d) : ScaledBasis1d :=
  RecurrenceBasis1d.scaled b.recurrence b.order (first.comp b.scaling)

/-- `ScaledBasis1d::sumWith`: delegate to the nested basis at
`getScaling().applyForward(x)`. -/
def ScaledBasis1d.sumWith (b : ScaledBasis1d) (x : ℚ) (coeffs : ℕ → ℚ)
    (mode : SumMode) : ℚ :=
  RecurrenceBasis1d.sumWith b.recurrence b.order (b.scaling.applyForward x)
    coeffs mode

/-- `ScaledBasis1d::fill`: delegate to the nested basis at
`getScaling().applyForward(x)`. -/
def ScaledBasis1d.fill (b : ScaledBasis1d) (x : ℚ) : List ℚ :=
  RecurrenceBasis1d.fill b.recurrence b.order (b.scaling.applyForward x)

/-! ### PackedIndex (include/lsst/geom/polynomials/PackedIndex.h) -/

/-- `PackingOrder`: secondary ordering of coefficients within a fixed total
degree. -/
inductive PackingOrder where
  | YX
  | XY
  deriving DecidableEq, Repr

/-- `Index2d`: flattened index together with the x and y orders. -/
structure Index2d where
  flat : ℕ
  nx : ℕ
  ny : ℕ
  deriving DecidableEq, Repr

/-- `PackingOrderTraits<packing>::computeInnerIndex`: the offset of the
coefficient once the `(nx + ny)` offset is subtracted off. -/
def computeInnerIndex : PackingOrder → ℕ → ℕ → ℕ
  | .YX, nx, _ => nx
  | .XY, _, ny => ny

/-- `PackingOrderTraits<packing>::increment`, acting on `nx`/`ny` only. -/
def traitsIncrement : PackingOrder → Index2d → Index2d
  | .YX, i => if i.ny = 0 then ⟨i.flat, 0, i.nx + 1⟩ else ⟨i.flat, i.nx + 1, i.ny - 1⟩
  | .XY, i => if i.nx = 0 then ⟨i.flat, i.ny + 1, 0⟩ else ⟨i.flat, i.nx - 1, i.ny + 1⟩

/-- `PackedIndexIterator::computeOffset`: `order*(order + 1)/2`. -/
def computeOffset (order : ℕ) : ℕ :=
  order * (order + 1) / 2

/-- `PackedIndexIterator::computeSize`: `computeOffset(order + 1)`. -/
def computeSize (order : ℕ) : ℕ :=
  computeOffset (order + 1)

/-- `PackedIndexIterator::computeIndex`:
`computeOffset(nx + ny) + computeInnerIndex(nx, ny)`. -/
def computeIndex (p : PackingOrder) (nx ny : ℕ) : ℕ :=
  computeOffset (nx + ny) + computeInnerIndex p nx ny

/-- `PackedIndexIterator::makeEnd`: the one-past-the-end iterator state
`(computeOffset(order + 1), getEndX(order), getEndY(order))`. -/
def makeEnd (p : PackingOrder) (order : ℕ) : Index2d :=
  match p with
  | .YX => ⟨computeOffset (order + 1), 0, order + 1⟩
  | .XY => ⟨computeOffset (order + 1), order + 1, 0⟩

/-- `PackedIndexIterator::operator++`: `++_index.flat; Traits::increment(_index)`. -/
def stepIndex (p : PackingOrder) (i : Index2d) : Index2d :=
  traitsIncrement p ⟨i.flat + 1, i.nx, i.ny⟩

/-- The iterator state after `k` increments of the begin (default-constructed)
iterator `(0, 0, 0)`. -/
def iterAt (p : PackingOrder) : ℕ → Index2d
  | 0 => ⟨0, 0, 0⟩
  | k + 1 => stepIndex p (iterAt p k)

/-- The list of `Index2d` values visited by iterating a
`PackedIndexRange(begin, makeEnd(order))`, i.e. `basis.getIndices()`. -/
def packedIndices (p : PackingOrder) (order : ℕ) : List Index2d :=
  (List.range (computeSize order)).map (iterAt p)

/-- The `(nx, ny)` pair expected at inner position `i` of total degree `d`. -/
def pairAt : PackingOrder → ℕ → ℕ → ℕ × ℕ
  | .YX, d, i => (i, d - i)
  | .XY, d, i => (d - i, i)

/-! ### PackedBasis2d (include/lsst/geom/polynomials/PackedBasis2d.h) -/

/-- `PackedBasis2d::fill`: fill the per-axis workspaces with the 1-d basis
values at the point's x and y, then write
`basis[index.flat] = workspaceX[index.nx]*workspaceY[index.ny]` over the
packed index range. -/
def PackedBasis2d.fill (R : Recurrence) (p : PackingOrder) (order : ℕ)
    (point : ℚ × ℚ) : List ℚ :=
  let wx := RecurrenceBasis1d.fill R order point.1
  let wy := RecurrenceBasis1d.fill R order point.2
  (packedIndices p order).foldl
    (fun basis idx => basis.set idx.flat (wx.getD idx.nx 0 * wy.getD idx.ny 0))
    (List.replicate (computeSize order) 0)

/-- `PackedBasis2d::sumWith`: same workspaces; accumulate
`coefficients[index.flat]*workspaceX[index.nx]*workspaceY[index.ny]` over the
packed index range, plainly from `0.0` in FAST mode or through a
default-constructed `SafeSum` in SAFE mode. -/
def PackedBasis2d.sumWith (R : Recurrence) (p : PackingOrder) (order : ℕ)
    (point : ℚ × ℚ) (coeffs : ℕ → ℚ) (mode : SumMode) : ℚ :=
  let wx := RecurrenceBasis1d.fill R order point.1
  let wy := RecurrenceBasis1d.fill R order point.2
  match mode with
  | .FAST =>
      (packedIndices p order).foldl
        (fun sum idx =>
          sum + coeffs idx.flat * wx.getD idx.nx 0 * wy.getD idx.ny 0) 0
  | .SAFE =>
      ((packedIndices p order).foldl
        (fun sum idx =>
          sum.add (coeffs idx.flat * wx.getD idx.nx 0 * wy.getD idx.ny 0))
        (SafeSum.ofInitial 0)).toNum

/-! ### ScaledBasis2d (include/lsst/geom/polynomials/ScaledBasis2d.h) -/

/-- `ScaledBasis2d<PackedBasis2d<...>>`: a nested packed basis plus a
`Scaling2d`. -/
structure ScaledBasis2d where
  recurrence : Recurrence
  packing : PackingOrder
  order : ℕ
  scaling : Scaling2d

/-- `PackedBasis2d::scaled`: `Scaled(*this, first)`. -/
def PackedBasis2d.scaled (R : Recurrence) (p : PackingOrder) (order : ℕ)
    (first : Scaling2d) : ScaledBasis2d :=
  ⟨R, p, order, first⟩

/-- `ScaledBasis2d::scaled`: `getNested().scaled(first.then(getScaling()))`. -/
def ScaledBasis2d.scaled (b : ScaledBasis2d) (first : Scaling2d) : ScaledBasis2d :=
  PackedBasis2d.scaled b.recurrence b.packing b.order (first.comp b.scaling)

/-- `ScaledBasis2d::sumWith`: delegate to the nested basis at
`getScaling().applyForward(point)`. -/
def ScaledBasis2d.sumWith (b : ScaledBasis2d) (point : ℚ × ℚ)
    (coeffs : ℕ → ℚ) (mode : SumMode) : ℚ :=
  PackedBasis2d.sumWith b.recurrence b.packing b.order
    (b.scaling.applyForward point) coeffs mode

/-- `ScaledBasis2d::fill`: delegate to the nested basis at
`getScaling().applyForward(point)`. -/
def ScaledBasis2d.fill (b : ScaledBasis2d) (point : ℚ × ℚ) : List ℚ :=
  PackedBasis2d.fill b.recurrence b.packing b.order
    (b.scaling.applyForward point)

/-! ### BinomialMatrix (src/polynomials/BinomialMatrix.cc) -/

/-- The matrix state after `Eigen::MatrixXd::Zero`, `col(0).setConstant(1)`
and `diagonal().setConstant(1)` in the `BinomialMatrix` constructor. -/
def binomialInit : ℕ → ℕ → ℚ :=
  fun i j => if j = 0 then 1 else if i = j then 1 else 0

/-- One outer iteration of the constructor loop (row `i`): `(i,0) = 1`,
`(i,i) = 1`, and for `1 ≤ j < i`, `(i,j) = m(i-1, j-1)*(i/j)`.  The inner
loop reads only row `i-1`, so its assignments are independent and their
joint effect on row `i` is this pointwise update. -/
def binomialRow (m : ℕ → ℕ → ℚ) (i : ℕ) : ℕ → ℕ → ℚ :=
  fun a b =>
    if a = i then
      if b = 0 then 1
      else if b = i then 1
      else if b < i then m (i - 1) (b - 1) * ((i : ℚ) / (b : ℚ))
      else m a b
    else m a b

/-- The constructor loop `for (i = 2; i <= nMax; ++i)`, unrolled from the top:
the state after processing rows `2..bound`. -/
def binomialLoop : ℕ → (ℕ → ℕ → ℚ)
  | 0 => binomialInit
  | 1 => binomialInit
  | bound + 2 => binomialRow (binomialLoop (bound + 1)) (bound + 2)

/-- `BinomialMatrix(nMax)` followed by `operator()(n, k)`. -/
def BinomialMatrix (nMax n k : ℕ) : ℚ :=
  binomialLoop nMax n k

/-! ### simplified, 1-d (src/polynomials/PolynomialFunction1d.cc) -/

/-- The inner loop `for (k = 0; k <= n; ++k, vk *= v)` of the 1-d
`simplified`: `sums[n - k] += sn*binomial(n, k)*f[n]*vk`, carrying the
incrementally updated power `vk` exactly as the source does. -/
def simplified1dInner (bin : ℕ → ℕ → ℚ) (fn sn v : ℚ) (n : ℕ) :
    ℕ → ℕ → ℚ → (ℕ → SafeSum) → (ℕ → SafeSum)
  | 0, _, _, sums => sums
  | fuel + 1, k, vk, sums =>
      simplified1dInner bin fn sn v n fuel (k + 1) (vk * v)
        (fun m => if m = n - k then (sums m).add (sn * bin n k * fn * vk)
                  else sums m)

/-- The outer loop `for (n = 0; n < basis.size(); ++n, sn *= s)` of the 1-d
`simplified`, carrying the incrementally updated power `sn`. -/
def simplified1dOuter (bin : ℕ → ℕ → ℚ) (f : ℕ → ℚ) (s v : ℚ) :
    ℕ → ℕ → ℚ → (ℕ → SafeSum) → (ℕ → SafeSum)
  | 0, _, _, sums => sums
  | fuel + 1, n, sn, sums =>
      simplified1dOuter bin f s v fuel (n + 1) (sn * s)
        (simplified1dInner bin (f n) sn v n (n + 1) 0 1 sums)

/-- `simplified(ScaledPolynomialFunction1d const &)`: run the double loop over
a vector of default-constructed `SafeSum`s, using
`BinomialMatrix(basis.getNested().getOrder())`, then read coefficient `m` as
`static_cast<double>(sums[m])`. -/
def simplified1d (order : ℕ) (f : ℕ → ℚ) (scaling : Scaling1d) : ℕ → ℚ :=
  fun m =>
    (simplified1dOuter (BinomialMatrix order) f scaling.scale scaling.shift
      (order + 1) 0 1 (fun _ => SafeSum.ofInitial 0) m).toNum

/-! ### simplified, 2-d (src/polynomials/PolynomialFunction2d.cc) -/

/-- `computePowers(x, n)[i]`: `r[0] = 1.0; r[i] = r[i-1]*x`. -/
def computePowers (x : ℚ) : ℕ → ℚ
  | 0 => 1
  | i + 1 => computePowers x i * x

/-- The inner loop `for (k = 0; k <= i.ny; ++k)` of the 2-d `simplified`:
`sums[basis.index(i.nx - j, i.ny - k)] += binomial(i.ny, k)*vPow[k]*tmp`. -/
def simplified2dInnerK (bin : ℕ → ℕ → ℚ) (vP : ℕ → ℚ) (p : PackingOrder)
    (nx ny j : ℕ) (tmp : ℚ) : ℕ → ℕ → (ℕ → SafeSum) → (ℕ → SafeSum)
  | 0, _, sums => sums
  | fuel + 1, k, sums =>
      simplified2dInnerK bin vP p nx ny j tmp fuel (k + 1)
        (fun t => if t = computeIndex p (nx - j) (ny - k)
          then (sums t).add (bin ny k * vP k * tmp) else sums t)

/-- The middle loop `for (j = 0; j <= i.nx; ++j)` of the 2-d `simplified`,
computing `tmp = binomial(i.nx, j)*uPow[j]*f[i.flat]*rPow[i.nx]*sPow[i.ny]`
and running the inner loop. -/
def simplified2dInnerJ (bin : ℕ → ℕ → ℚ) (uP vP rP sP : ℕ → ℚ)
    (p : PackingOrder) (f : ℕ → ℚ) (idx : Index2d) :
    ℕ → ℕ → (ℕ → SafeSum) → (ℕ → SafeSum)
  | 0, _, sums => sums
  | fuel + 1, j, sums =>
      simplified2dInnerJ bin uP vP rP sP p f idx fuel (j + 1)
        (simplified2dInnerK bin vP p idx.nx idx.ny j
          (bin idx.nx j * uP j * f idx.flat * rP idx.nx * sP idx.ny)
          (idx.ny + 1) 0 sums)

/-- `simplified(ScaledPolynomialFunction2d const &)`: precompute the four
incremental power tables and `BinomialMatrix(basis.getNested().getOrder())`,
iterate over `basis.getIndices()` distributing each source coefficient by the
double binomial loop into per-target compensated accumulators, and read
coefficient `t` as `static_cast<double>(sums[t])`. -/
def simplified2d (p : PackingOrder) (order : ℕ) (f : ℕ → ℚ)
    (sc : Scaling2d) : ℕ → ℚ :=
  let rP := computePowers sc.x.scale
  let sP := computePowers sc.y.scale
  let uP := computePowers sc.x.shift
  let vP := computePowers sc.y.shift
  let bin := BinomialMatrix order
  fun t =>
    ((packedIndices p order).foldl
      (fun sums idx =>
        simplified2dInnerJ bin uP vP rP sP p f idx (idx.nx + 1) 0 sums)
      (fun _ => SafeSum.ofInitial 0) t).toNum

/-- In exact arithmetic the compensated update adds exactly `value`. -/
theorem SafeSum.add_toNum (s : SafeSum) (value : ℚ) :
    (s.add value).toNum = s.toNum + value := by
  unfold SafeSum.add SafeSum.toNum
  split <;> simp <;> ring

theorem SafeSum.ofInitial_toNum (v : ℚ) : (SafeSum.ofInitial v).toNum = v := by
  simp [SafeSum.ofInitial, SafeSum.toNum]

/-! ### Claims C7, C8, C10 -/

/-- C10: assigning a plain number to a `SafeSum` resets the compensation, so
converting back yields exactly the assigned value, from any prior state. -/
theorem safeSum_assign_discards_compensation :
    ∀ (s : SafeSum) (v : ℚ), (s.assign v).toNum = v := by
  intro s v
  simp [SafeSum.assign, SafeSum.toNum]

/-- C7 counterexample: with `a = Scaling1d(0, 0)` (zero scale) and
`b = Scaling1d(1, 1)`, `a.then(b).applyForward(0) ≠
b.applyForward(a.applyForward(0))`: the composed transform divides by the zero
scale, so the claimed identity fails without a nonzero-scale restriction. -/
theorem scaling_then_zero_scale_counterexample :
    (Scaling1d.comp ⟨0, 0⟩ ⟨1, 1⟩).applyForward 0 ≠
      Scaling1d.applyForward ⟨1, 1⟩ (Scaling1d.applyForward ⟨0, 0⟩ 0) := by
  norm_num [Scaling1d.comp, Scaling1d.applyForward]

theorem Scaling1d.comp_applyForward (a b : Scaling1d) (ha : a.scale ≠ 0)
    (x : ℚ) :
    (a.comp b).applyForward x = b.applyForward (a.applyForward x) := by
  unfold Scaling1d.comp Scaling1d.applyForward
  field_simp
  ring

theorem Scaling1d.comp_applyInverse (a b : Scaling1d) (y : ℚ) :
    (a.comp b).applyInverse y = a.applyInverse (b.applyInverse y) := by
  unfold Scaling1d.comp Scaling1d.applyInverse
  rw [mul_comm a.scale b.scale, ← div_div]
  ring

/-- C7 (amended): for scalings `a` with nonzero scale, `a.then(b)` composes as
specified: forward is `b.applyForward ∘ a.applyForward` and inverse is
`a.applyInverse ∘ b.applyInverse`. -/
theorem scaling_then_composes (a b : Scaling1d) (ha : a.scale ≠ 0) :
    (∀ x : ℚ, (a.comp b).applyForward x = b.applyForward (a.applyForward x)) ∧
    (∀ y : ℚ, (a.comp b).applyInverse y = a.applyInverse (b.applyInverse y)) :=
  ⟨Scaling1d.comp_applyForward a b ha, Scaling1d.comp_applyInverse a b⟩

/-- C7 witness: the amended composition law evaluated at a concrete input. -/
theorem scaling_then_composes_witness :
    (2 : ℚ) ≠ 0 ∧
      (Scaling1d.comp ⟨2, 3⟩ ⟨5, 7⟩).applyForward 11 =
        Scaling1d.applyForward ⟨5, 7⟩ (Scaling1d.applyForward ⟨2, 3⟩ 11) :=
  ⟨by norm_num, (scaling_then_composes ⟨2, 3⟩ ⟨5, 7⟩ (by norm_num)).1 11⟩

/-- C8: for a scaling with nonzero scale, `s.then(s.inverted())` is the
identity map, and `s.inverted().applyForward` agrees with `s.applyInverse`. -/
theorem scaling_inverted_round_trip (s : Scaling1d) (hs : s.scale ≠ 0) :
    (∀ x : ℚ, (s.comp s.inverted).applyForward x = x) ∧
    (∀ y : ℚ, s.inverted.applyForward y = s.applyInverse y) := by
  constructor
  · intro x
    unfold Scaling1d.comp Scaling1d.inverted Scaling1d.applyForward
    field_simp
  · intro y
    unfold Scaling1d.inverted Scaling1d.applyForward Scaling1d.applyInverse
    field_simp
    ring

/-- C8 witness: the round trip evaluated at a concrete scaling and point. -/
theorem scaling_inverted_round_trip_witness :
    (2 : ℚ) ≠ 0 ∧ ((Scaling1d.comp ⟨2, 3⟩ (Scaling1d.inverted ⟨2, 3⟩)).applyForward 5 = 5) :=
  ⟨by norm_num, (scaling_inverted_round_trip ⟨2, 3⟩ (by norm_num)).1 5⟩

/-! ### Fused evaluation vs materialized evaluation, 1-d -/

theorem recFillGo_length (R : Recurrence) (x : ℚ) :
    ∀ (fuel n : ℕ) (current previous : ℚ),
      (recFillGo R x fuel n current previous).length = fuel := by
  intro fuel
  induction fuel with
  | zero => intro n current previous; rfl
  | succ fuel ih =>
      intro n current previous
      simp [recFillGo, ih]

theorem recSumGo_add_eq (R : Recurrence) (x : ℚ) (coeffs : ℕ → ℚ) :
    ∀ (fuel n : ℕ) (current previous z : ℚ),
      recSumGo (· + ·) R x coeffs fuel n current previous z =
        z + ∑ i ∈ Finset.range fuel,
          coeffs (n + i) * (recFillGo R x fuel n current previous).getD i 0 := by
  intro fuel
  induction fuel with
  | zero => intro n current previous z; simp [recSumGo, recFillGo]
  | succ fuel ih =>
      intro n current previous z
      rw [recSumGo, recFillGo]
      rw [ih]
      rw [Finset.sum_range_succ']
      simp only [List.getD_cons_succ, List.getD_cons_zero, Nat.add_succ,
        Nat.succ_add, Nat.add_zero]
      ring

theorem sumWith1d_FAST_eq_dot (R : Recurrence) (order : ℕ) (x : ℚ)
    (coeffs : ℕ → ℚ) :
    RecurrenceBasis1d.sumWith R order x coeffs .FAST =
      dot (RecurrenceBasis1d.fill R order x) coeffs := by
  cases order with
  | zero =>
      simp [RecurrenceBasis1d.sumWith, RecurrenceBasis1d.accumulate,
        RecurrenceBasis1d.fill, dot]
  | succ order =>
      rw [RecurrenceBasis1d.sumWith, RecurrenceBasis1d.accumulate,
        RecurrenceBasis1d.fill]
      rw [if_pos (Nat.succ_pos order), if_pos (Nat.succ_pos order)]
      simp only [Nat.succ_sub_one]
      rw [recSumGo_add_eq]
      rw [dot]
      simp only [List.length_cons, recFillGo_length]
      rw [Finset.sum_range_succ', Finset.sum_range_succ']
      simp only [List.getD_cons_succ, List.getD_cons_zero]
      have h : ∀ i ∈ Finset.range order,
          coeffs (2 + i) *
              (recFillGo R x order 2 (R.getB1 x) (R.getB0 x)).getD i 0 =
            (recFillGo R x order 2 (R.getB1 x) (R.getB0 x)).getD i 0 *
              coeffs (i + 1 + 1) := by
        intro i _
        rw [show (2 : ℕ) + i = i + 1 + 1 by omega]
        ring
      rw [Finset.sum_congr rfl h]
      ring

/-! ### Packed-index enumeration -/

theorem computeOffset_succ (d : ℕ) :
    computeOffset (d + 1) = computeOffset d + d + 1 := by
  unfold computeOffset
  have h : (d + 1) * (d + 1 + 1) = d * (d + 1) + 2 * (d + 1) := by ring
  rw [h, Nat.add_mul_div_left _ _ (by norm_num : 0 < 2), ← Nat.add_assoc]

theorem computeOffset_mono {d d' : ℕ} (h : d ≤ d') :
    computeOffset d ≤ computeOffset d' :=
  Nat.div_le_div_right (Nat.mul_le_mul h (by omega))

theorem offset_decomp (k : ℕ) : ∃ d i, i ≤ d ∧ k = computeOffset d + i := by
  induction k with
  | zero => exact ⟨0, 0, Nat.le_refl 0, by simp [computeOffset]⟩
  | succ k ih =>
      obtain ⟨d, i, hid, hk⟩ := ih
      rcases Nat.eq_or_lt_of_le hid with h | h
      · refine ⟨d + 1, 0, Nat.zero_le _, ?_⟩
        have hs := computeOffset_succ d
        omega
      · exact ⟨d, i + 1, h, by omega⟩

theorem offset_decomp_unique {d i d' i' : ℕ} (hi : i ≤ d) (hi' : i' ≤ d')
    (h : computeOffset d + i = computeOffset d' + i') : d = d' ∧ i = i' := by
  rcases Nat.lt_trichotomy d d' with hdd | hdd | hdd
  · exfalso
    have hs := computeOffset_succ d
    have h2 : computeOffset (d + 1) ≤ computeOffset d' := computeOffset_mono hdd
    omega
  · subst hdd
    exact ⟨rfl, by omega⟩
  · exfalso
    have hs := computeOffset_succ d'
    have h2 : computeOffset (d' + 1) ≤ computeOffset d := computeOffset_mono hdd
    omega

theorem offset_add_lt_size_iff {d i N : ℕ} (hid : i ≤ d) :
    computeOffset d + i < computeSize N ↔ d ≤ N := by
  unfold computeSize
  constructor
  · intro h
    by_contra hdN
    have h2 : computeOffset (N + 1) ≤ computeOffset d := computeOffset_mono (by omega)
    omega
  · intro h
    have hs := computeOffset_succ d
    have h2 : computeOffset (d + 1) ≤ computeOffset (N + 1) := computeOffset_mono (by omega)
    omega

theorem iterAt_offset (p : PackingOrder) :
    ∀ d i, i ≤ d → iterAt p (computeOffset d + i) =
      ⟨computeOffset d + i, (pairAt p d i).1, (pairAt p d i).2⟩ := by
  intro d
  induction d with
  | zero =>
      intro i hi
      have hi0 : i = 0 := Nat.le_zero.mp hi
      subst hi0
      cases p <;> simp [iterAt, pairAt, computeOffset]
  | succ d ihd =>
      intro i
      induction i with
      | zero =>
          intro _
          have hd := ihd d (Nat.le_refl d)
          have e : computeOffset (d + 1) + 0 = (computeOffset d + d) + 1 := by
            have := computeOffset_succ d
            omega
          rw [e, iterAt, hd]
          cases p <;>
            simp [stepIndex, traitsIncrement, pairAt, Nat.sub_self]
      | succ i ihi =>
          intro hi
          have hprev := ihi (by omega)
          have e : computeOffset (d + 1) + (i + 1) = (computeOffset (d + 1) + i) + 1 := by
            omega
          rw [e, iterAt, hprev]
          have hne : ¬ ((d + 1) - i = 0) := by omega
          cases p <;>
            simp [stepIndex, traitsIncrement, pairAt, hne] <;>
            omega

theorem pairAt_deg (p : PackingOrder) {d i : ℕ} (h : i ≤ d) :
    (pairAt p d i).1 + (pairAt p d i).2 = d := by
  cases p <;> simp [pairAt] <;> omega

theorem computeInnerIndex_le (p : PackingOrder) (nx ny : ℕ) :
    computeInnerIndex p nx ny ≤ nx + ny := by
  cases p <;> simp [computeInnerIndex]

theorem pairAt_computeInnerIndex (p : PackingOrder) (nx ny : ℕ) :
    pairAt p (nx + ny) (computeInnerIndex p nx ny) = (nx, ny) := by
  cases p <;> simp [computeInnerIndex, pairAt]

theorem pairAt_inner {p : PackingOrder} {d i nx ny : ℕ}
    (h : pairAt p d i = (nx, ny)) : i = computeInnerIndex p nx ny := by
  cases p <;> simp [pairAt, computeInnerIndex] at h ⊢ <;> omega

/-- The iterator state at any position `k`, with the unique decomposition
`k = computeOffset d + i`, `i ≤ d`, visiting pair `pairAt p d i`. -/
theorem iterAt_spec (p : PackingOrder) (k : ℕ) :
    ∃ d i, i ≤ d ∧ k = computeOffset d + i ∧
      iterAt p k = ⟨k, (pairAt p d i).1, (pairAt p d i).2⟩ := by
  obtain ⟨d, i, hid, rfl⟩ := offset_decomp k
  exact ⟨d, i, hid, rfl, iterAt_offset p d i hid⟩

theorem iterAt_flat (p : PackingOrder) (k : ℕ) : (iterAt p k).flat = k := by
  obtain ⟨d, i, _, _, hit⟩ := iterAt_spec p k
  rw [hit]

theorem iterAt_computeIndex (p : PackingOrder) (nx ny : ℕ) :
    iterAt p (computeIndex p nx ny) = ⟨computeIndex p nx ny, nx, ny⟩ := by
  have h := iterAt_offset p (nx + ny) (computeInnerIndex p nx ny)
    (computeInnerIndex_le p nx ny)
  rw [pairAt_computeInnerIndex] at h
  exact h

theorem computeIndex_lt_size {p : PackingOrder} {nx ny N : ℕ} (h : nx + ny ≤ N) :
    computeIndex p nx ny < computeSize N := by
  unfold computeIndex
  rw [offset_add_lt_size_iff (computeInnerIndex_le p nx ny)]
  exact h

theorem iterAt_deg_mono (p : PackingOrder) {j k : ℕ} (h : j ≤ k) :
    (iterAt p j).nx + (iterAt p j).ny ≤ (iterAt p k).nx + (iterAt p k).ny := by
  obtain ⟨dj, ij, hij, hkj, hitj⟩ := iterAt_spec p j
  obtain ⟨dk, ik, hik, hkk, hitk⟩ := iterAt_spec p k
  rw [hitj, hitk]
  simp only [pairAt_deg p hij, pairAt_deg p hik]
  by_contra hd
  have hs := computeOffset_succ dk
  have h2 : computeOffset (dk + 1) ≤ computeOffset dj := computeOffset_mono (by omega)
  omega

theorem iterAt_end (p : PackingOrder) (N : ℕ) :
    iterAt p (computeSize N) = makeEnd p N := by
  have h := iterAt_offset p (N + 1) 0 (Nat.zero_le _)
  rw [Nat.add_zero] at h
  cases p <;> simp [computeSize, makeEnd, h, pairAt]

/-- C3: packed-index enumeration.  For every order `N` and both packing
orders: `size(N) = (N+1)(N+2)/2`; starting from the begin iterator, the first
`size(N)` iterator states have `flat` equal to their step count (so `flat`
starts at `0` and increases by exactly `1`), stay inside the triangle
`nx + ny ≤ N`, satisfy the packing formula
`flat = offset(nx+ny) + inner(nx,ny)` (`inner = nx` for YX, `ny` for XY),
proceed in non-decreasing total degree, and visit each pair of the triangle
exactly once (a bijection onto `[0, size(N))`); after exactly `size(N)` steps
the iterator equals the end iterator and never before. -/
theorem packed_index_enumeration (p : PackingOrder) (N : ℕ) :
    computeSize N = (N + 1) * (N + 2) / 2 ∧
    (∀ k, k < computeSize N →
      (iterAt p k).flat = k ∧
      (iterAt p k).nx + (iterAt p k).ny ≤ N ∧
      (iterAt p k).flat =
        computeOffset ((iterAt p k).nx + (iterAt p k).ny) +
          computeInnerIndex p (iterAt p k).nx (iterAt p k).ny) ∧
    (∀ j k, j ≤ k → k < computeSize N →
      (iterAt p j).nx + (iterAt p j).ny ≤ (iterAt p k).nx + (iterAt p k).ny) ∧
    (∀ nx ny, nx + ny ≤ N →
      ∃! k, k < computeSize N ∧ (iterAt p k).nx = nx ∧ (iterAt p k).ny = ny) ∧
    iterAt p (computeSize N) = makeEnd p N ∧
    (∀ k, k < computeSize N → iterAt p k ≠ makeEnd p N) := by
  refine ⟨rfl, ?_, fun j k hjk _ => iterAt_deg_mono p hjk, ?_, iterAt_end p N, ?_⟩
  · intro k hk
    obtain ⟨d, i, hid, hdec, hit⟩ := iterAt_spec p k
    have hdN : d ≤ N := by
      rw [hdec] at hk
      exact (offset_add_lt_size_iff hid).mp hk
    refine ⟨by rw [hit], ?_, ?_⟩
    · rw [hit]
      simp only [pairAt_deg p hid]
      exact hdN
    · rw [hit]
      simp only [pairAt_deg p hid]
      have : computeInnerIndex p (pairAt p d i).1 (pairAt p d i).2 = i := by
        have := @pairAt_inner p d i (pairAt p d i).1 (pairAt p d i).2 rfl
        omega
      rw [this, ← hdec]
  · intro nx ny hN
    refine ⟨computeIndex p nx ny, ⟨computeIndex_lt_size hN, ?_, ?_⟩, ?_⟩
    · rw [iterAt_computeIndex]
    · rw [iterAt_computeIndex]
    · intro k ⟨_, hnx, hny⟩
      obtain ⟨d, i, hid, hdec, hit⟩ := iterAt_spec p k
      rw [hit] at hnx hny
      have hpair : pairAt p d i = (nx, ny) := by
        rw [← hnx, ← hny]
      have hd : d = nx + ny := by
        have := pairAt_deg p hid
        rw [hpair] at this
        omega
      have hi : i = computeInnerIndex p nx ny := pairAt_inner hpair
      rw [hdec, hd, hi]
      rfl
  · intro k hk he
    have hf := iterAt_flat p k
    have hfe : (makeEnd p N).flat = computeSize N := by cases p <;> rfl
    rw [he, hfe] at hf
    omega

/-- C3 witness: the order-2 YX enumeration, evaluated at step 4, visits
`(nx, ny) = (1, 1)` at flat index 4, inside the triangle. -/
theorem packed_index_enumeration_witness :
    4 < computeSize 2 ∧ (iterAt .YX 4).flat = 4 ∧
      (iterAt .YX 4).nx + (iterAt .YX 4).ny ≤ 2 :=
  ⟨by decide, ((packed_index_enumeration .YX 2).2.1 4 (by decide)).1,
    ((packed_index_enumeration .YX 2).2.1 4 (by decide)).2.1⟩

/-- C4: prefix property — for `K ≤ N` the first `size(K)` entries of the
order-`N` packed enumeration are exactly the order-`K` enumeration, in the
same order, for both packing orders. -/
theorem packed_prefix_property (p : PackingOrder) (K N : ℕ) (h : K ≤ N) :
    (packedIndices p N).take (computeSize K) = packedIndices p K := by
  unfold packedIndices
  rw [← List.map_take, List.take_range]
  have : min (computeSize K) (computeSize N) = computeSize K :=
    Nat.min_eq_left (computeOffset_mono (by omega))
  rw [this]

/-- C4 witness: the order-1 enumeration is the first `size(1)` entries of the
order-3 enumeration (XY packing). -/
theorem packed_prefix_property_witness :
    1 ≤ 3 ∧ (packedIndices .XY 3).take (computeSize 1) = packedIndices .XY 1 :=
  ⟨by decide, packed_prefix_property .XY 1 3 (by decide)⟩

/-! ### Fused evaluation vs materialized evaluation, 2-d -/

theorem getD_set_ite (v : ℚ) :
    ∀ (l : List ℚ) (m i : ℕ),
      (l.set m v).getD i 0 = if m = i ∧ m < l.length then v else l.getD i 0 := by
  intro l
  induction l with
  | nil => intro m i; simp
  | cons a l ih =>
      intro m i
      cases m with
      | zero =>
          cases i with
          | zero => simp
          | succ i => simp
      | succ m =>
          cases i with
          | zero => simp
          | succ i =>
              simp only [List.set_cons_succ, List.getD_cons_succ, ih,
                List.length_cons]
              by_cases h : m = i ∧ m < l.length
              · rw [if_pos h, if_pos (by omega)]
              · rw [if_neg h, if_neg (by omega)]

theorem foldl_set_length (g : Index2d → ℚ) (l : List Index2d) (init : List ℚ) :
    (List.foldl (fun b idx => b.set idx.flat (g idx)) init l).length =
      init.length := by
  induction l generalizing init with
  | nil => rfl
  | cons a l ih => simp [List.foldl_cons, ih]

theorem foldl_set_getD (g : Index2d → ℚ) :
    ∀ (l : List Index2d) (s : ℕ) (init : List ℚ),
      (∀ j, j < l.length → (l.getD j ⟨0, 0, 0⟩).flat = s + j) →
      ∀ i : ℕ,
        (List.foldl (fun b idx => b.set idx.flat (g idx)) init l).getD i 0 =
          if s ≤ i ∧ i - s < l.length ∧ i < init.length then
            g (l.getD (i - s) ⟨0, 0, 0⟩)
          else init.getD i 0 := by
  intro l
  induction l with
  | nil =>
      intro s init _ i
      rw [List.foldl_nil, if_neg (by simp)]
  | cons a l ih =>
      intro s init hfl i
      have ha : a.flat = s := by
        have := hfl 0 (by simp)
        simpa using this
      rw [List.foldl_cons, ha]
      rw [ih (s + 1) (init.set s (g a))
        (fun j hj => by
          have h2 := hfl (j + 1) (by simpa using Nat.succ_lt_succ hj)
          rw [List.getD_cons_succ] at h2
          omega) i]
      simp only [List.length_set, List.length_cons]
      by_cases h1 : s + 1 ≤ i ∧ i - (s + 1) < l.length ∧ i < init.length
      · rw [if_pos h1, if_pos (by omega)]
        have he : i - s = (i - (s + 1)) + 1 := by omega
        rw [he, List.getD_cons_succ]
      · rw [if_neg h1, getD_set_ite]
        by_cases h2 : s = i ∧ s < init.length
        · rw [if_pos h2, if_pos (by omega)]
          have he : i - s = 0 := by omega
          rw [he, List.getD_cons_zero]
        · rw [if_neg h2, if_neg (by omega)]

theorem foldl_add_eq (g : Index2d → ℚ) (l : List Index2d) (z : ℚ) :
    List.foldl (fun sum idx => sum + g idx) z l = z + (l.map g).sum := by
  induction l generalizing z with
  | nil => simp
  | cons a l ih => simp [List.foldl_cons, ih]; ring

theorem list_range_map_sum (f : ℕ → ℚ) (n : ℕ) :
    ((List.range n).map f).sum = ∑ k ∈ Finset.range n, f k := by
  induction n with
  | zero => simp
  | succ n ih => rw [List.range_succ]; simp [ih, Finset.sum_range_succ]

theorem packedIndices_length (p : PackingOrder) (N : ℕ) :
    (packedIndices p N).length = computeSize N := by
  simp [packedIndices]

theorem packedIndices_getD (p : PackingOrder) (N : ℕ) {j : ℕ}
    (hj : j < computeSize N) :
    (packedIndices p N).getD j ⟨0, 0, 0⟩ = iterAt p j := by
  rw [List.getD_eq_getElem _ _ (by simpa [packedIndices] using hj)]
  simp [packedIndices]

theorem packedIndices_map_sum (p : PackingOrder) (N : ℕ) (g : Index2d → ℚ) :
    ((packedIndices p N).map g).sum =
      ∑ k ∈ Finset.range (computeSize N), g (iterAt p k) := by
  unfold packedIndices
  rw [List.map_map]
  exact list_range_map_sum _ _

theorem PackedBasis2d.fill_length (R : Recurrence) (p : PackingOrder)
    (order : ℕ) (point : ℚ × ℚ) :
    (PackedBasis2d.fill R p order point).length = computeSize order := by
  unfold PackedBasis2d.fill
  rw [foldl_set_length, List.length_replicate]

theorem PackedBasis2d.fill_getD (R : Recurrence) (p : PackingOrder)
    (order : ℕ) (point : ℚ × ℚ) {i : ℕ} (hi : i < computeSize order) :
    (PackedBasis2d.fill R p order point).getD i 0 =
      (RecurrenceBasis1d.fill R order point.1).getD (iterAt p i).nx 0 *
        (RecurrenceBasis1d.fill R order point.2).getD (iterAt p i).ny 0 := by
  unfold PackedBasis2d.fill
  rw [foldl_set_getD _ _ 0 _
    (fun j hj => by
      rw [packedIndices_getD p order (by simpa [packedIndices_length] using hj),
        iterAt_flat]
      omega) i]
  rw [if_pos (by simp [packedIndices_length, List.length_replicate]; omega)]
  rw [Nat.sub_zero, packedIndices_getD p order hi]

theorem PackedBasis2d.sumWith_FAST_eq_dot (R : Recurrence) (p : PackingOrder)
    (order : ℕ) (point : ℚ × ℚ) (coeffs : ℕ → ℚ) :
    PackedBasis2d.sumWith R p order point coeffs .FAST =
      dot (PackedBasis2d.fill R p order point) coeffs := by
  simp only [PackedBasis2d.sumWith]
  rw [foldl_add_eq, packedIndices_map_sum, zero_add]
  rw [dot, PackedBasis2d.fill_length]
  refine Finset.sum_congr rfl ?_
  intro i hi
  rw [Finset.mem_range] at hi
  rw [PackedBasis2d.fill_getD R p order point hi, iterAt_flat]
  ring

/-! ### Scaled-basis composition (C6) -/

/-- C6 counterexample: take the scaled power basis `b` of order 1 with scaling
`(scale=1, shift=1)` and compose the further scaling `s = (scale=0, shift=0)`.
`b.scaled(s)` folds `s.then(scaling)` which divides by `s`'s zero scale, so
evaluating `b.scaled(s)` at `x = 0` with coefficients `(0, 1)` differs from
evaluating `b` at `s.applyForward(0)`: the claim fails without a
nonzero-scale restriction on `s`. -/
theorem scaledBasis_scaled_zero_scale_counterexample :
    ((RecurrenceBasis1d.scaled PolynomialRecurrence 1 ⟨1, 1⟩).scaled
          ⟨0, 0⟩).sumWith 0 (fun n => if n = 1 then 1 else 0) .FAST ≠
      (RecurrenceBasis1d.scaled PolynomialRecurrence 1 ⟨1, 1⟩).sumWith
        (Scaling1d.applyForward ⟨0, 0⟩ 0) (fun n => if n = 1 then 1 else 0)
        .FAST := by
  norm_num [ScaledBasis1d.scaled, RecurrenceBasis1d.scaled,
    ScaledBasis1d.sumWith, Scaling1d.comp, Scaling1d.applyForward,
    RecurrenceBasis1d.sumWith, RecurrenceBasis1d.accumulate, recSumGo,
    PolynomialRecurrence]

/-- C6 (amended): for every `b` and every further scaling `s`, `b.scaled(s)`
wraps the nested basis `B` itself (same recurrence and order, no double
wrapper) under the single composed scaling `s.then(t)` — unconditionally; and,
when `s` has nonzero scale, its `sumWith` and `fill` results equal those of
evaluating `b` at `s.applyForward(x)`. -/
theorem scaledBasis_scaled_collapses (b : ScaledBasis1d) (s : Scaling1d) :
    ((b.scaled s).recurrence = b.recurrence ∧ (b.scaled s).order = b.order ∧
      (b.scaled s).scaling = s.comp b.scaling) ∧
    (s.scale ≠ 0 →
      (∀ (x : ℚ) (coeffs : ℕ → ℚ) (mode : SumMode),
        (b.scaled s).sumWith x coeffs mode =
          b.sumWith (s.applyForward x) coeffs mode) ∧
      (∀ x : ℚ, (b.scaled s).fill x = b.fill (s.applyForward x))) := by
  refine ⟨⟨rfl, rfl, rfl⟩, fun hs => ⟨?_, ?_⟩⟩
  · intro x coeffs mode
    unfold ScaledBasis1d.scaled RecurrenceBasis1d.scaled ScaledBasis1d.sumWith
    simp only
    rw [Scaling1d.comp_applyForward s b.scaling hs]
  · intro x
    unfold ScaledBasis1d.scaled RecurrenceBasis1d.scaled ScaledBasis1d.fill
    simp only
    rw [Scaling1d.comp_applyForward s b.scaling hs]

/-- C6 witness: the collapse evaluated at a concrete basis, scaling, point and
coefficient vector, discharging the nonzero-scale hypothesis of the
behavioral part. -/
theorem scaledBasis_scaled_collapses_witness :
    (2 : ℚ) ≠ 0 ∧
      ((RecurrenceBasis1d.scaled Chebyshev1Recurrence 2 ⟨3, 5⟩).scaled
            ⟨2, 7⟩).sumWith 1 (fun n => (n : ℚ)) .FAST =
        (RecurrenceBasis1d.scaled Chebyshev1Recurrence 2 ⟨3, 5⟩).sumWith
          (Scaling1d.applyForward ⟨2, 7⟩ 1) (fun n => (n : ℚ)) .FAST :=
  ⟨by norm_num,
    ((scaledBasis_scaled_collapses
        (RecurrenceBasis1d.scaled Chebyshev1Recurrence 2 ⟨3, 5⟩) ⟨2, 7⟩).2
        (by norm_num)).1 1 (fun n => (n : ℚ)) .FAST⟩

/-- C5: fused evaluation equals materialized evaluation in FAST mode — for
every 1-d recurrence basis (hence for both the power and Chebyshev
recurrences), every 2-d packed basis (both packing orders), scaled or
unscaled, every point and every coefficient vector,
`sumWith(x, coeffs, FAST) = dot(fill(x), coeffs)` exactly. -/
theorem sumWith_equals_materialized :
    (∀ (R : Recurrence) (order : ℕ) (x : ℚ) (coeffs : ℕ → ℚ),
      RecurrenceBasis1d.sumWith R order x coeffs .FAST =
        dot (RecurrenceBasis1d.fill R order x) coeffs) ∧
    (∀ (b : ScaledBasis1d) (x : ℚ) (coeffs : ℕ → ℚ),
      b.sumWith x coeffs .FAST = dot (b.fill x) coeffs) ∧
    (∀ (R : Recurrence) (p : PackingOrder) (order : ℕ) (point : ℚ × ℚ)
        (coeffs : ℕ → ℚ),
      PackedBasis2d.sumWith R p order point coeffs .FAST =
        dot (PackedBasis2d.fill R p order point) coeffs) ∧
    (∀ (b : ScaledBasis2d) (point : ℚ × ℚ) (coeffs : ℕ → ℚ),
      b.sumWith point coeffs .FAST = dot (b.fill point) coeffs) :=
  ⟨sumWith1d_FAST_eq_dot,
    fun b x coeffs =>
      sumWith1d_FAST_eq_dot b.recurrence b.order (b.scaling.applyForward x) coeffs,
    PackedBasis2d.sumWith_FAST_eq_dot,
    fun b point coeffs =>
      PackedBasis2d.sumWith_FAST_eq_dot b.recurrence b.packing b.order
        (b.scaling.applyForward point) coeffs⟩

/-! ### Binomial cache (C9) -/

theorem binomialLoop_row_untouched (m : ℕ → ℕ → ℚ) (i a b : ℕ) (ha : a ≠ i) :
    binomialRow m i a b = m a b := by
  simp [binomialRow, ha]

theorem binomialLoop_correct :
    ∀ (bound n k : ℕ), k ≤ n → n ≤ bound →
      binomialLoop bound n k = (Nat.choose n k : ℚ) := by
  intro bound
  induction bound with
  | zero =>
      intro n k hk hn
      have hn0 : n = 0 := by omega
      have hk0 : k = 0 := by omega
      subst hn0; subst hk0
      simp [binomialLoop, binomialInit]
  | succ bound ih =>
      intro n k hk hn
      rcases Nat.lt_or_ge n (bound + 1) with hlt | hge
      · -- row n was settled in an earlier iteration (or the initial state)
        have h := ih n k hk (by omega)
        match bound, h with
        | 0, h =>
            -- binomialLoop 1 = binomialInit = binomialLoop 0
            simpa [binomialLoop] using h
        | bound + 1, h =>
            rw [binomialLoop, binomialLoop_row_untouched _ _ _ _ (by omega)]
            exact h
      · -- n = bound + 1: the row written by this iteration
        have hn' : n = bound + 1 := by omega
        subst hn'
        match bound with
        | 0 =>
            -- rows 0 and 1 come from the initial state; the loop body never
            -- runs for nMax <= 1
            interval_cases k <;> simp [binomialLoop, binomialInit]
        | bound + 1 =>
            rw [binomialLoop]
            unfold binomialRow
            rw [if_pos rfl]
            rcases Nat.eq_zero_or_pos k with hk0 | hkpos
            · subst hk0; simp
            · rcases Nat.eq_or_lt_of_le hk with hkn | hklt
              · rw [if_neg (by omega), if_pos (by omega)]
                rw [hkn, Nat.choose_self, Nat.cast_one]
              · rw [if_neg (by omega), if_neg (by omega), if_pos (by omega)]
                rw [show bound + 1 + 1 - 1 = bound + 1 by omega]
                rw [ih (bound + 1) (k - 1) (by omega) (by omega)]
                have hnat : (bound + 1 + 1) * Nat.choose (bound + 1) (k - 1) =
                    Nat.choose (bound + 1 + 1) k * k := by
                  have h2 := Nat.succ_mul_choose_eq (bound + 1) (k - 1)
                  simp only [Nat.succ_eq_add_one] at h2
                  rw [show k - 1 + 1 = k by omega] at h2
                  exact h2
                have hkq : (k : ℚ) ≠ 0 := Nat.cast_ne_zero.mpr (by omega)
                rw [← mul_div_assoc, div_eq_iff hkq]
                have hres : Nat.choose (bound + 1) (k - 1) * (bound + 1 + 1) =
                    Nat.choose (bound + 1 + 1) k * k := by
                  rw [mul_comm]
                  exact hnat
                exact_mod_cast hres

/-- C9: the binomial cache built by the multiplicative step
`C(n,k) = C(n-1,k-1)*(n/k)` holds exactly `n!/(k!(n-k)!)` for all
`0 ≤ k ≤ n ≤ nMax` under exact arithmetic, including the rows `n = 0` and
`n = 1`, which come from the initial column/diagonal fill because the loop
body never runs for them. -/
theorem binomial_cache_correct (nMax n k : ℕ) (hk : k ≤ n) (hn : n ≤ nMax) :
    BinomialMatrix nMax n k = (Nat.choose n k : ℚ) ∧
    BinomialMatrix nMax n k =
      (Nat.factorial n : ℚ) /
        (Nat.factorial k * Nat.factorial (n - k)) := by
  have h := binomialLoop_correct nMax n k hk hn
  refine ⟨h, ?_⟩
  rw [BinomialMatrix] at *
  rw [h, Nat.cast_choose ℚ hk]

/-- C9 witness: `C(4,2) = 6` from the cache with `nMax = 4`, matching both the
`choose` function and the factorial formula. -/
theorem binomial_cache_correct_witness :
    2 ≤ 4 ∧ (4 ≤ 4 ∧ BinomialMatrix 4 4 2 = (Nat.choose 4 2 : ℚ)) :=
  ⟨by norm_num, by norm_num, (binomial_cache_correct 4 4 2 (by norm_num) (by norm_num)).1⟩

/-! ### De-scaling, 1-d (C1) -/

theorem simplified1dInner_toNum (bin : ℕ → ℕ → ℚ) (fn sn v : ℚ) (n : ℕ) :
    ∀ (fuel k : ℕ) (vk : ℚ) (sums : ℕ → SafeSum) (m : ℕ),
      ((simplified1dInner bin fn sn v n fuel k vk sums) m).toNum =
        (sums m).toNum +
          ∑ j ∈ Finset.range fuel,
            (if n - (k + j) = m then sn * bin n (k + j) * fn * (vk * v ^ j)
             else 0) := by
  intro fuel
  induction fuel with
  | zero => intro k vk sums m; simp [simplified1dInner]
  | succ fuel ih =>
      intro k vk sums m
      rw [simplified1dInner, ih]
      rw [Finset.sum_range_succ']
      have hsums : ((fun m' => if m' = n - k
              then (sums m').add (sn * bin n k * fn * vk) else sums m') m).toNum =
          (sums m).toNum + (if n - (k + 0) = m
            then sn * bin n (k + 0) * fn * (vk * v ^ 0) else 0) := by
        by_cases hm : m = n - k
        · simp [hm, SafeSum.add_toNum]
        · simp [hm, Ne.symm hm]
      rw [hsums]
      have hB : ∀ j ∈ Finset.range fuel,
          (if n - (k + 1 + j) = m
            then sn * bin n (k + 1 + j) * fn * (vk * v * v ^ j) else 0) =
          (if n - (k + (j + 1)) = m
            then sn * bin n (k + (j + 1)) * fn * (vk * v ^ (j + 1)) else 0) := by
        intro j _
        rw [show k + 1 + j = k + (j + 1) by omega]
        by_cases hc : n - (k + (j + 1)) = m
        · rw [if_pos hc, if_pos hc, pow_succ]
          ring
        · rw [if_neg hc, if_neg hc]
      rw [Finset.sum_congr rfl hB]
      ring

theorem simplified1dOuter_toNum (bin : ℕ → ℕ → ℚ) (f : ℕ → ℚ) (s v : ℚ) :
    ∀ (fuel n : ℕ) (sn : ℚ) (sums : ℕ → SafeSum) (m : ℕ),
      ((simplified1dOuter bin f s v fuel n sn sums) m).toNum =
        (sums m).toNum +
          ∑ q ∈ Finset.range fuel, ∑ j ∈ Finset.range (n + q + 1),
            (if (n + q) - j = m then
              (sn * s ^ q) * bin (n + q) j * f (n + q) * v ^ j else 0) := by
  intro fuel
  induction fuel with
  | zero => intro n sn sums m; simp [simplified1dOuter]
  | succ fuel ih =>
      intro n sn sums m
      rw [simplified1dOuter, ih, simplified1dInner_toNum]
      have hG0 : ∑ j ∈ Finset.range (n + 1),
            (if n - (0 + j) = m then sn * bin n (0 + j) * f n * (1 * v ^ j)
             else 0) =
          ∑ j ∈ Finset.range (n + 0 + 1),
            (if (n + 0) - j = m then
              (sn * s ^ 0) * bin (n + 0) j * f (n + 0) * v ^ j else 0) := by
        refine Finset.sum_congr (by rw [Nat.add_zero]) (fun j _ => ?_)
        rw [Nat.zero_add, Nat.add_zero, pow_zero, mul_one, one_mul]
      have hGs : ∀ q ∈ Finset.range fuel,
          (∑ j ∈ Finset.range (n + 1 + q + 1),
            (if (n + 1 + q) - j = m then
              (sn * s * s ^ q) * bin (n + 1 + q) j * f (n + 1 + q) * v ^ j
             else 0)) =
          (∑ j ∈ Finset.range (n + (q + 1) + 1),
            (if (n + (q + 1)) - j = m then
              (sn * s ^ (q + 1)) * bin (n + (q + 1)) j * f (n + (q + 1)) * v ^ j
             else 0)) := by
        intro q _
        rw [show n + 1 + q = n + (q + 1) by omega]
        refine Finset.sum_congr rfl (fun j _ => ?_)
        by_cases hc : n + (q + 1) - j = m
        · rw [if_pos hc, if_pos hc, pow_succ]
          ring
        · rw [if_neg hc, if_neg hc]
      rw [Finset.sum_congr rfl hGs, hG0]
      conv_rhs => rw [Finset.sum_range_succ']
      ring

theorem simplified1d_coeffs (order : ℕ) (f : ℕ → ℚ) (sc : Scaling1d) (m : ℕ) :
    simplified1d order f sc m =
      ∑ q ∈ Finset.range (order + 1), ∑ j ∈ Finset.range (q + 1),
        (if q - j = m then
          (Nat.choose q j : ℚ) * sc.scale ^ q * f q * sc.shift ^ j else 0) := by
  unfold simplified1d
  rw [simplified1dOuter_toNum]
  rw [SafeSum.ofInitial_toNum, zero_add]
  refine Finset.sum_congr rfl (fun q hq => ?_)
  rw [Finset.mem_range] at hq
  refine Finset.sum_congr (by rw [Nat.zero_add]) (fun j hj => ?_)
  rw [Finset.mem_range] at hj
  rw [Nat.zero_add]
  have hbin : BinomialMatrix order q j = (Nat.choose q j : ℚ) :=
    binomialLoop_correct order q j (by omega) (by omega)
  rw [hbin]
  by_cases hc : q - j = m
  · rw [if_pos hc, if_pos hc, one_mul]
    ring
  · rw [if_neg hc, if_neg hc]

theorem recFillGo_poly (x : ℚ) :
    ∀ (fuel n : ℕ) (cur prev : ℚ),
      recFillGo PolynomialRecurrence x fuel n cur prev =
        (List.range fuel).map (fun i => cur * x ^ (i + 1)) := by
  intro fuel
  induction fuel with
  | zero => intro n cur prev; simp [recFillGo]
  | succ fuel ih =>
      intro n cur prev
      simp only [recFillGo]
      have hnext : PolynomialRecurrence.next x n cur prev = cur * x := rfl
      rw [hnext, ih, List.range_succ_eq_map, List.map_cons, List.map_map]
      congr 1
      · rw [pow_one]
      · refine List.map_congr_left (fun i _ => ?_)
        simp only [Function.comp_apply, Nat.succ_eq_add_one]
        rw [pow_succ]
        ring

theorem fill1d_length (R : Recurrence) (order : ℕ) (x : ℚ) :
    (RecurrenceBasis1d.fill R order x).length = order + 1 := by
  unfold RecurrenceBasis1d.fill
  split
  · simp [recFillGo_length]
    omega
  · simp
    omega

theorem powerFill_getD (order : ℕ) (x : ℚ) :
    ∀ i, i ≤ order →
      (RecurrenceBasis1d.fill PolynomialRecurrence order x).getD i 0 = x ^ i := by
  intro i hi
  unfold RecurrenceBasis1d.fill
  by_cases h : 0 < order
  · rw [if_pos h]
    match i, hi with
    | 0, _ => simp [PolynomialRecurrence]
    | 1, _ => simp [PolynomialRecurrence]
    | i + 2, hi =>
        rw [List.getD_cons_succ, List.getD_cons_succ, recFillGo_poly]
        rw [List.getD_eq_getElem _ _
          (by simp [List.length_map, List.length_range]; omega)]
        simp only [List.getElem_map, List.getElem_range, PolynomialRecurrence]
        ring
  · rw [if_neg h]
    have h0 : order = 0 := by omega
    have hi0 : i = 0 := by omega
    subst hi0
    simp [PolynomialRecurrence]

theorem power_sumWith (order : ℕ) (x : ℚ) (c : ℕ → ℚ) :
    RecurrenceBasis1d.sumWith PolynomialRecurrence order x c .FAST =
      ∑ n ∈ Finset.range (order + 1), c n * x ^ n := by
  rw [sumWith1d_FAST_eq_dot, dot, fill1d_length]
  refine Finset.sum_congr rfl (fun i hi => ?_)
  rw [Finset.mem_range] at hi
  rw [powerFill_getD order x i (by omega)]
  ring

theorem descaling_1d_eval (order : ℕ) (f : ℕ → ℚ) (sc : Scaling1d) (x : ℚ) :
    ∑ m ∈ Finset.range (order + 1), simplified1d order f sc m * x ^ m =
      ∑ n ∈ Finset.range (order + 1),
        f n * ((x + sc.shift) * sc.scale) ^ n := by
  have hstep1 : ∑ m ∈ Finset.range (order + 1),
        simplified1d order f sc m * x ^ m =
      ∑ m ∈ Finset.range (order + 1), ∑ q ∈ Finset.range (order + 1),
        ∑ j ∈ Finset.range (q + 1),
          (if q - j = m then
            (Nat.choose q j : ℚ) * sc.scale ^ q * f q * sc.shift ^ j * x ^ m
           else 0) := by
    refine Finset.sum_congr rfl (fun m _ => ?_)
    rw [simplified1d_coeffs, Finset.sum_mul]
    refine Finset.sum_congr rfl (fun q _ => ?_)
    rw [Finset.sum_mul]
    refine Finset.sum_congr rfl (fun j _ => ?_)
    rw [ite_mul, zero_mul]
  rw [hstep1, Finset.sum_comm]
  refine Finset.sum_congr rfl (fun q hq => ?_)
  rw [Finset.mem_range] at hq
  rw [Finset.sum_comm]
  have hcollapse : ∀ j ∈ Finset.range (q + 1),
      (∑ m ∈ Finset.range (order + 1),
        (if q - j = m then
          (Nat.choose q j : ℚ) * sc.scale ^ q * f q * sc.shift ^ j * x ^ m
         else 0)) =
      (Nat.choose q j : ℚ) * sc.scale ^ q * f q * sc.shift ^ j * x ^ (q - j) := by
    intro j _
    rw [Finset.sum_ite_eq]
    rw [if_pos (Finset.mem_range.mpr (by omega))]
  rw [Finset.sum_congr rfl hcollapse]
  rw [mul_pow, show x + sc.shift = sc.shift + x from add_comm x sc.shift,
    add_pow, Finset.sum_mul, Finset.mul_sum]
  refine Finset.sum_congr rfl (fun j _ => ?_)
  ring

/-- C1: de-scaling correctness in 1-d.  For every order, coefficient vector
`a` and scaling `(scale, shift)`, the coefficients `b` produced by
`simplified` satisfy `Σ b_m x^m = Σ a_n ((x+shift)·scale)^n` for every `x`
(exact arithmetic); equivalently, evaluating the simplified function through
the power-basis `sumWith` agrees with evaluating the original scaled function
at every point. -/
theorem descaling_1d (order : ℕ) (f : ℕ → ℚ) (sc : Scaling1d) (x : ℚ) :
    (∑ m ∈ Finset.range (order + 1), simplified1d order f sc m * x ^ m =
      ∑ n ∈ Finset.range (order + 1),
        f n * ((x + sc.shift) * sc.scale) ^ n) ∧
    RecurrenceBasis1d.sumWith PolynomialRecurrence order x
        (simplified1d order f sc) .FAST =
      (RecurrenceBasis1d.scaled PolynomialRecurrence order sc).sumWith x f
        .FAST := by
  refine ⟨descaling_1d_eval order f sc x, ?_⟩
  rw [power_sumWith]
  rw [ScaledBasis1d.sumWith]
  simp only [RecurrenceBasis1d.scaled]
  rw [power_sumWith]
  rw [descaling_1d_eval order f sc x]
  rfl

/-! ### De-scaling, 2-d (C2) -/

theorem computePowers_eq (x : ℚ) : ∀ i, computePowers x i = x ^ i := by
  intro i
  induction i with
  | zero => rfl
  | succ i ih => rw [computePowers, ih, pow_succ]

theorem iterAt_deg_le (p : PackingOrder) {i N : ℕ} (hi : i < computeSize N) :
    (iterAt p i).nx + (iterAt p i).ny ≤ N := by
  obtain ⟨d, j, hjd, hdec, hit⟩ := iterAt_spec p i
  rw [hit]
  simp only [pairAt_deg p hjd]
  rw [hdec] at hi
  exact (offset_add_lt_size_iff hjd).mp hi

theorem simplified2dInnerK_toNum (bin : ℕ → ℕ → ℚ) (vP : ℕ → ℚ)
    (p : PackingOrder) (nx ny j : ℕ) (tmp : ℚ) :
    ∀ (fuel k : ℕ) (sums : ℕ → SafeSum) (t : ℕ),
      ((simplified2dInnerK bin vP p nx ny j tmp fuel k sums) t).toNum =
        (sums t).toNum +
          ∑ i ∈ Finset.range fuel,
            (if computeIndex p (nx - j) (ny - (k + i)) = t
             then bin ny (k + i) * vP (k + i) * tmp else 0) := by
  intro fuel
  induction fuel with
  | zero => intro k sums t; simp [simplified2dInnerK]
  | succ fuel ih =>
      intro k sums t
      rw [simplified2dInnerK, ih]
      rw [Finset.sum_range_succ']
      have hupd : ((fun t' => if t' = computeIndex p (nx - j) (ny - k)
              then (sums t').add (bin ny k * vP k * tmp) else sums t') t).toNum =
          (sums t).toNum +
            (if computeIndex p (nx - j) (ny - (k + 0)) = t
             then bin ny (k + 0) * vP (k + 0) * tmp else 0) := by
        by_cases hm : t = computeIndex p (nx - j) (ny - k)
        · simp [hm, SafeSum.add_toNum]
        · simp [hm, Ne.symm hm]
      rw [hupd]
      have hsh : ∀ i ∈ Finset.range fuel,
          (if computeIndex p (nx - j) (ny - (k + 1 + i)) = t
            then bin ny (k + 1 + i) * vP (k + 1 + i) * tmp else 0) =
          (if computeIndex p (nx - j) (ny - (k + (i + 1))) = t
            then bin ny (k + (i + 1)) * vP (k + (i + 1)) * tmp else 0) := by
        intro i _
        rw [show k + 1 + i = k + (i + 1) by omega]
      rw [Finset.sum_congr rfl hsh]
      ring

theorem simplified2dInnerJ_toNum (bin : ℕ → ℕ → ℚ) (uP vP rP sP : ℕ → ℚ)
    (p : PackingOrder) (f : ℕ → ℚ) (idx : Index2d) :
    ∀ (fuel j : ℕ) (sums : ℕ → SafeSum) (t : ℕ),
      ((simplified2dInnerJ bin uP vP rP sP p f idx fuel j sums) t).toNum =
        (sums t).toNum +
          ∑ a ∈ Finset.range fuel, ∑ k ∈ Finset.range (idx.ny + 1),
            (if computeIndex p (idx.nx - (j + a)) (idx.ny - k) = t
             then bin idx.ny k * vP k *
               (bin idx.nx (j + a) * uP (j + a) * f idx.flat * rP idx.nx *
                 sP idx.ny) else 0) := by
  intro fuel
  induction fuel with
  | zero => intro j sums t; simp [simplified2dInnerJ]
  | succ fuel ih =>
      intro j sums t
      rw [simplified2dInnerJ, ih, simplified2dInnerK_toNum]
      have hG0 : ∑ i ∈ Finset.range (idx.ny + 1),
            (if computeIndex p (idx.nx - j) (idx.ny - (0 + i)) = t
             then bin idx.ny (0 + i) * vP (0 + i) *
               (bin idx.nx j * uP j * f idx.flat * rP idx.nx * sP idx.ny)
             else 0) =
          ∑ k ∈ Finset.range (idx.ny + 1),
            (if computeIndex p (idx.nx - (j + 0)) (idx.ny - k) = t
             then bin idx.ny k * vP k *
               (bin idx.nx (j + 0) * uP (j + 0) * f idx.flat * rP idx.nx *
                 sP idx.ny) else 0) := by
        refine Finset.sum_congr rfl (fun k _ => ?_)
        rw [Nat.zero_add, Nat.add_zero]
      have hGs : ∀ a ∈ Finset.range fuel,
          (∑ k ∈ Finset.range (idx.ny + 1),
            (if computeIndex p (idx.nx - (j + 1 + a)) (idx.ny - k) = t
             then bin idx.ny k * vP k *
               (bin idx.nx (j + 1 + a) * uP (j + 1 + a) * f idx.flat *
                 rP idx.nx * sP idx.ny) else 0)) =
          (∑ k ∈ Finset.range (idx.ny + 1),
            (if computeIndex p (idx.nx - (j + (a + 1))) (idx.ny - k) = t
             then bin idx.ny k * vP k *
               (bin idx.nx (j + (a + 1)) * uP (j + (a + 1)) * f idx.flat *
                 rP idx.nx * sP idx.ny) else 0)) := by
        intro a _
        rw [show j + 1 + a = j + (a + 1) by omega]
      rw [Finset.sum_congr rfl hGs, hG0]
      conv_rhs => rw [Finset.sum_range_succ']
      ring

theorem simplified2dFold_toNum (bin : ℕ → ℕ → ℚ) (uP vP rP sP : ℕ → ℚ)
    (p : PackingOrder) (f : ℕ → ℚ) :
    ∀ (l : List Index2d) (sums : ℕ → SafeSum) (t : ℕ),
      ((l.foldl (fun sums idx =>
          simplified2dInnerJ bin uP vP rP sP p f idx (idx.nx + 1) 0 sums)
          sums) t).toNum =
        (sums t).toNum +
          (l.map (fun idx =>
            ∑ j ∈ Finset.range (idx.nx + 1), ∑ k ∈ Finset.range (idx.ny + 1),
              (if computeIndex p (idx.nx - j) (idx.ny - k) = t
               then bin idx.ny k * vP k *
                 (bin idx.nx j * uP j * f idx.flat * rP idx.nx * sP idx.ny)
               else 0))).sum := by
  intro l
  induction l with
  | nil => intro sums t; simp
  | cons a l ih =>
      intro sums t
      rw [List.foldl_cons, ih, simplified2dInnerJ_toNum]
      rw [List.map_cons, List.sum_cons]
      have h0 : ∑ b ∈ Finset.range (a.nx + 1), ∑ k ∈ Finset.range (a.ny + 1),
            (if computeIndex p (a.nx - (0 + b)) (a.ny - k) = t
             then bin a.ny k * vP k * (bin a.nx (0 + b) * uP (0 + b) *
               f a.flat * rP a.nx * sP a.ny) else 0) =
          ∑ j ∈ Finset.range (a.nx + 1), ∑ k ∈ Finset.range (a.ny + 1),
            (if computeIndex p (a.nx - j) (a.ny - k) = t
             then bin a.ny k * vP k * (bin a.nx j * uP j *
               f a.flat * rP a.nx * sP a.ny) else 0) := by
        refine Finset.sum_congr rfl (fun j _ => ?_)
        rw [Nat.zero_add]
      rw [h0]
      ring

theorem simplified2d_coeffs (p : PackingOrder) (order : ℕ) (f : ℕ → ℚ)
    (sc : Scaling2d) (t : ℕ) :
    simplified2d p order f sc t =
      ∑ i ∈ Finset.range (computeSize order),
        ∑ j ∈ Finset.range ((iterAt p i).nx + 1),
          ∑ k ∈ Finset.range ((iterAt p i).ny + 1),
            (if computeIndex p ((iterAt p i).nx - j) ((iterAt p i).ny - k) = t
             then (Nat.choose (iterAt p i).ny k : ℚ) * sc.y.shift ^ k *
               ((Nat.choose (iterAt p i).nx j : ℚ) * sc.x.shift ^ j *
                 f (iterAt p i).flat * sc.x.scale ^ (iterAt p i).nx *
                 sc.y.scale ^ (iterAt p i).ny) else 0) := by
  simp only [simplified2d]
  rw [simplified2dFold_toNum]
  rw [SafeSum.ofInitial_toNum, zero_add]
  rw [packedIndices_map_sum]
  refine Finset.sum_congr rfl (fun i hi => ?_)
  rw [Finset.mem_range] at hi
  have hdeg := iterAt_deg_le p hi
  refine Finset.sum_congr rfl (fun j hj => ?_)
  rw [Finset.mem_range] at hj
  refine Finset.sum_congr rfl (fun k hk => ?_)
  rw [Finset.mem_range] at hk
  have hbk : BinomialMatrix order (iterAt p i).ny k =
      (Nat.choose (iterAt p i).ny k : ℚ) :=
    binomialLoop_correct order (iterAt p i).ny k (by omega) (by omega)
  have hbj : BinomialMatrix order (iterAt p i).nx j =
      (Nat.choose (iterAt p i).nx j : ℚ) :=
    binomialLoop_correct order (iterAt p i).nx j (by omega) (by omega)
  rw [hbk, hbj]
  simp only [computePowers_eq]

/-- C2: de-scaling correctness in 2-d.  For both packing orders, every order,
coefficient vector and per-axis scalings, `simplified` distributes each source
coefficient `a_{nx,ny}` over the targets `(nx-j, ny-k)` with weight
`C(nx,j)·C(ny,k)·rx^nx·ry^ny·ux^j·uy^k`, and the resulting unscaled function
equals the input scaled function at every point (exact arithmetic). -/
theorem descaling_2d (p : PackingOrder) (order : ℕ) (f : ℕ → ℚ)
    (sc : Scaling2d) (x y : ℚ) :
    ((packedIndices p order).map (fun idx =>
        simplified2d p order f sc idx.flat * x ^ idx.nx * y ^ idx.ny)).sum =
      ((packedIndices p order).map (fun idx =>
        f idx.flat * ((x + sc.x.shift) * sc.x.scale) ^ idx.nx *
          ((y + sc.y.shift) * sc.y.scale) ^ idx.ny)).sum := by
  rw [packedIndices_map_sum, packedIndices_map_sum]
  have hL : ∀ t ∈ Finset.range (computeSize order),
      simplified2d p order f sc (iterAt p t).flat * x ^ (iterAt p t).nx *
          y ^ (iterAt p t).ny =
        ∑ i ∈ Finset.range (computeSize order),
          ∑ j ∈ Finset.range ((iterAt p i).nx + 1),
            ∑ k ∈ Finset.range ((iterAt p i).ny + 1),
              (if computeIndex p ((iterAt p i).nx - j) ((iterAt p i).ny - k)
                  = t
               then ((Nat.choose (iterAt p i).ny k : ℚ) * sc.y.shift ^ k *
                 ((Nat.choose (iterAt p i).nx j : ℚ) * sc.x.shift ^ j *
                   f (iterAt p i).flat * sc.x.scale ^ (iterAt p i).nx *
                   sc.y.scale ^ (iterAt p i).ny)) *
                 (x ^ (iterAt p t).nx * y ^ (iterAt p t).ny) else 0) := by
    intro t _
    rw [iterAt_flat, simplified2d_coeffs, mul_assoc, Finset.sum_mul]
    refine Finset.sum_congr rfl (fun i _ => ?_)
    rw [Finset.sum_mul]
    refine Finset.sum_congr rfl (fun j _ => ?_)
    rw [Finset.sum_mul]
    refine Finset.sum_congr rfl (fun k _ => ?_)
    rw [ite_mul, zero_mul]
  rw [Finset.sum_congr rfl hL]
  rw [Finset.sum_comm]
  refine Finset.sum_congr rfl (fun i hi => ?_)
  rw [Finset.mem_range] at hi
  have hdeg := iterAt_deg_le p hi
  have hcol : ∑ t ∈ Finset.range (computeSize order),
        ∑ j ∈ Finset.range ((iterAt p i).nx + 1),
          ∑ k ∈ Finset.range ((iterAt p i).ny + 1),
            (if computeIndex p ((iterAt p i).nx - j) ((iterAt p i).ny - k) = t
             then ((Nat.choose (iterAt p i).ny k : ℚ) * sc.y.shift ^ k *
               ((Nat.choose (iterAt p i).nx j : ℚ) * sc.x.shift ^ j *
                 f (iterAt p i).flat * sc.x.scale ^ (iterAt p i).nx *
                 sc.y.scale ^ (iterAt p i).ny)) *
               (x ^ (iterAt p t).nx * y ^ (iterAt p t).ny) else 0) =
      ∑ j ∈ Finset.range ((iterAt p i).nx + 1),
        ∑ k ∈ Finset.range ((iterAt p i).ny + 1),
          ((Nat.choose (iterAt p i).ny k : ℚ) * sc.y.shift ^ k *
            ((Nat.choose (iterAt p i).nx j : ℚ) * sc.x.shift ^ j *
              f (iterAt p i).flat * sc.x.scale ^ (iterAt p i).nx *
              sc.y.scale ^ (iterAt p i).ny)) *
            (x ^ ((iterAt p i).nx - j) * y ^ ((iterAt p i).ny - k)) := by
    rw [Finset.sum_comm]
    refine Finset.sum_congr rfl (fun j hj => ?_)
    rw [Finset.sum_comm]
    refine Finset.sum_congr rfl (fun k hk => ?_)
    rw [Finset.mem_range] at hj hk
    rw [Finset.sum_ite_eq]
    rw [if_pos (Finset.mem_range.mpr (computeIndex_lt_size (by omega)))]
    simp only [iterAt_computeIndex]
  rw [hcol]
  have hx : ((x + sc.x.shift) * sc.x.scale) ^ (iterAt p i).nx =
      ∑ j ∈ Finset.range ((iterAt p i).nx + 1),
        sc.x.shift ^ j * x ^ ((iterAt p i).nx - j) *
          (Nat.choose (iterAt p i).nx j : ℚ) *
          sc.x.scale ^ (iterAt p i).nx := by
    rw [mul_pow, show x + sc.x.shift = sc.x.shift + x from add_comm x _,
      add_pow, Finset.sum_mul]
  have hy : ((y + sc.y.shift) * sc.y.scale) ^ (iterAt p i).ny =
      ∑ k ∈ Finset.range ((iterAt p i).ny + 1),
        sc.y.shift ^ k * y ^ ((iterAt p i).ny - k) *
          (Nat.choose (iterAt p i).ny k : ℚ) *
          sc.y.scale ^ (iterAt p i).ny := by
    rw [mul_pow, show y + sc.y.shift = sc.y.shift + y from add_comm y _,
      add_pow, Finset.sum_mul]
  rw [hx, hy]
  rw [Finset.sum_comm]
  rw [Finset.mul_sum]
  refine Finset.sum_congr rfl (fun k _ => ?_)
  rw [Finset.mul_sum, Finset.sum_mul]
  refine Finset.sum_congr rfl (fun j _ => ?_)
  ring

end LsstPoly
